import Mathlib

set_option linter.unusedVariables false

/-!
Verification development for the Hard Wordle game-logic core.

Words are embedded as `List Char`.  The dictionary (`Dictionary.js`) and the
keyboard-hint aggregation (`UIController.js`) are translated directly from the
JavaScript sources.  The feedback generator, guess record, game state and game
controller are only declared and tested in the repository snapshot
(`FeedbackGenerator.js`, `Guess.js`, `GameState.js`, `GameController.js` are
referenced by the tests and the README but their sources are absent), so those
components are modelled from the specification, as marked on each definition.
-/

/-- Per-letter feedback status for a guessed letter. -/
inductive LetterStatus where
  | correct
  | present
  | absent
deriving DecidableEq

/-- One letter of feedback: the guessed letter together with its status,
mirroring the `{ letter, status }` objects produced by the feedback generator. -/
structure LetterFeedback where
  letter : Char
  status : LetterStatus
deriving DecidableEq

/-- Number of occurrences of the letter `c` in the word `w`. -/
def countLetter (w : List Char) (c : Char) : Nat :=
  w.countP (fun d => decide (d = c))

/-- Modelled from the spec: the number of exact-position matches of letter `c`
between `guess` and `target` (pass 1 of the two-pass feedback algorithm in
§4.2; `FeedbackGenerator.js` is not among the sources). -/
def exactMatches (guess target : List Char) (c : Char) : Nat :=
  (guess.zip target).countP (fun p => decide (p.1 = p.2 ∧ p.1 = c))

/-- Modelled from the spec: the availability counter after pass 1 — the full
per-letter count in `target` minus the occurrences consumed by exact matches. -/
def initAvail (guess target : List Char) : Char → Nat :=
  fun c => countLetter target c - exactMatches guess target c

/-- Modelled from the spec: pass 2 of the feedback algorithm.  The input pairs
each guess letter with whether it is an exact match; exact matches are emitted
as `correct`, and a non-exact letter is emitted as `present` while its
availability remains positive (decrementing it), `absent` otherwise, scanning
left to right. -/
def pass2 : List (Char × Bool) → (Char → Nat) → List LetterFeedback
  | [], _ => []
  | (c, true) :: rest, avail =>
      ⟨c, LetterStatus.correct⟩ :: pass2 rest avail
  | (c, false) :: rest, avail =>
      if 0 < avail c then
        ⟨c, LetterStatus.present⟩ :: pass2 rest (fun d => if d = c then avail c - 1 else avail d)
      else
        ⟨c, LetterStatus.absent⟩ :: pass2 rest avail

/-- Modelled from the spec: the marks list for pass 1, pairing each guess
letter with whether it matches `target` at the same position. -/
def exactMarks (guess target : List Char) : List (Char × Bool) :=
  (guess.zip target).map (fun p => (p.1, decide (p.1 = p.2)))

/-- Modelled from the spec: `FeedbackGenerator.generateFeedback` — the two-pass,
frequency-aware feedback computation of §4.2. -/
def generateFeedback (guess target : List Char) : List LetterFeedback :=
  pass2 (exactMarks guess target) (initAvail guess target)

/-- Number of feedback entries for letter `c` whose status is `correct` or
`present`. -/
def correctOrPresentCount (fb : List LetterFeedback) (c : Char) : Nat :=
  fb.countP (fun f =>
    decide (f.letter = c ∧ (f.status = LetterStatus.correct ∨ f.status = LetterStatus.present)))

/-- A JavaScript runtime value, as far as the dictionary code inspects one:
`typeof word !== 'string'` and `.toLowerCase()` only distinguish strings from
every other value. -/
inductive JSValue where
  | str (s : List Char)
  | num (n : Int)
  | boolean (b : Bool)
  | null
  | undefined
deriving DecidableEq

/-- JavaScript `v.toLowerCase()`: defined on strings, a thrown `TypeError`
(`none`) on every other value. -/
def JSValue.toLowerCase : JSValue → Option (List Char)
  | .str s => some (s.map Char.toLower)
  | _ => none

/-- `words.map(word => word.toLowerCase())` from the `Dictionary` constructor:
evaluates left to right and aborts (`none`) at the first non-string element. -/
def lowerAll : List JSValue → Option (List (List Char))
  | [] => some []
  | v :: vs =>
    match v.toLowerCase, lowerAll vs with
    | some w, some ws => some (w :: ws)
    | _, _ => none

/-- `new Set(...)` insertion: append the word unless it is already stored,
keeping first-insertion order as a JavaScript `Set` does. -/
def setInsert (acc : List (List Char)) (w : List Char) : List (List Char) :=
  if w ∈ acc then acc else acc ++ [w]

/-- The element list of `new Set(lowered)`: distinct words in insertion order. -/
def buildSet (ws : List (List Char)) : List (List Char) :=
  ws.foldl setInsert []

/-- The `Dictionary` of `Dictionary.js`: `wordArray = Array.from(this.wordSet)`,
the distinct lowercased words.  (`wordSet` has the same members, so one field
suffices.) -/
structure Dictionary where
  wordArray : List (List Char)
deriving DecidableEq

/-- The `Dictionary` constructor: requires a non-empty array (else it throws),
lowercases every entry (throwing on a non-string entry), and stores the
distinct results. -/
def Dictionary.make (words : List JSValue) : Option Dictionary :=
  if words.length = 0 then none
  else
    match lowerAll words with
    | none => none
    | some lowered => some ⟨buildSet lowered⟩

/-- `Dictionary.isValidWord`: `false` for every non-string value, otherwise a
membership test of the lowercased string. -/
def Dictionary.isValidWord (d : Dictionary) (v : JSValue) : Bool :=
  match v with
  | .str s => decide (s.map Char.toLower ∈ d.wordArray)
  | _ => false

/-- `Dictionary.size`: `wordArray.length`. -/
def Dictionary.size (d : Dictionary) : Nat :=
  d.wordArray.length

/-- The count named by the spec sentence for claim C7, following the spec's
words (for comparison with `Dictionary.size`): the number of distinct
lowercase 5-letter strings inserted. -/
def specFiveLetterCount (words : List JSValue) : Nat :=
  (buildSet (words.filterMap JSValue.toLowerCase)).countP (fun w => decide (w.length = 5))

/-- Modelled from the spec: the `Guess` record (`Guess.js` is not among the
sources) — a normalized word paired with its computed feedback. -/
structure Guess where
  word : List Char
  feedback : List LetterFeedback
deriving DecidableEq

/-- Game status of a session: `in-progress`, `won` or `lost`. -/
inductive GameStatus where
  | inProgress
  | won
  | lost
deriving DecidableEq

/-- Modelled from the spec: the `GameState` record (`GameState.js` is not among
the sources) — target word, chronological guesses, attempt budget, status. -/
structure GameState where
  targetWord : List Char
  guesses : List Guess
  maxAttempts : Nat
  gameStatus : GameStatus
deriving DecidableEq

/-- Modelled from the spec: the derived status of §3 — `won` if some guess
equals the target, else `lost` once the attempt budget is exhausted, else
`in-progress`. -/
def deriveStatus (target : List Char) (guesses : List Guess) (maxAttempts : Nat) : GameStatus :=
  if guesses.any (fun g => decide (g.word = target)) then GameStatus.won
  else if guesses.length = maxAttempts then GameStatus.lost
  else GameStatus.inProgress

/-- Modelled from the spec: `GameState` construction — zero guesses and
`in-progress` status. -/
def GameState.mkInitial (target : List Char) (maxAttempts : Nat) : GameState :=
  ⟨target, [], maxAttempts, GameStatus.inProgress⟩

/-- `GameState.isGameOver`: the status is not `in-progress`. -/
def GameState.isGameOver (s : GameState) : Bool :=
  decide (s.gameStatus ≠ GameStatus.inProgress)

/-- `GameState.getRemainingAttempts`: `maxAttempts - guesses.length`. -/
def GameState.getRemainingAttempts (s : GameState) : Int :=
  (s.maxAttempts : Int) - (s.guesses.length : Int)

/-- Modelled from the spec: `GameState.addGuess` / `recordAttempt` — rejected
(`none`, a `StateError`) unless the status is `in-progress` and the attempt
budget is not yet exhausted; otherwise appends the guess and re-derives the
status. -/
def GameState.addGuess (s : GameState) (g : Guess) : Option GameState :=
  if s.gameStatus = GameStatus.inProgress ∧ s.guesses.length < s.maxAttempts then
    some ⟨s.targetWord, s.guesses ++ [g], s.maxAttempts,
      deriveStatus s.targetWord (s.guesses ++ [g]) s.maxAttempts⟩
  else none

/-- The session states reachable through the specified lifecycle: a fresh
session built by the constructor (5-letter target, positive attempt budget),
then any number of accepted `addGuess` steps. -/
inductive Reachable : GameState → Prop
  | mkInitial (target : List Char) (maxAttempts : Nat)
      (hm : 0 < maxAttempts) (ht : target.length = 5) :
      Reachable (GameState.mkInitial target maxAttempts)
  | step {s s' : GameState} (g : Guess)
      (hr : Reachable s) (h : s.addGuess g = some s') :
      Reachable s'

/-- The guess-rejection kinds of §4.5 and §7, surfaced through a structured
result rather than thrown. -/
inductive GuessError where
  | gameOver
  | emptyInput
  | lengthError
  | notInDictionary
  | stateError
deriving DecidableEq

/-- Modelled from the spec: the `GuessResult` returned by `submitGuess`. -/
structure GuessResult where
  success : Bool
  error : Option GuessError
  guess : Option Guess
  gameStatus : Option GameStatus
deriving DecidableEq

/-- Modelled from the spec: the `GameController` — a word store plus the
current session, if any (`GameController.js` is not among the sources). -/
structure GameController where
  dictionary : Dictionary
  gameState : Option GameState
deriving DecidableEq

/-- Whitespace as trimmed from raw input. -/
def isWhitespaceChar (c : Char) : Bool :=
  decide (c = ' ' ∨ c = '\t' ∨ c = '\n' ∨ c = '\r')

/-- `raw.trim()`: strip leading and trailing whitespace. -/
def trimWord (s : List Char) : List Char :=
  ((s.dropWhile isWhitespaceChar).reverse.dropWhile isWhitespaceChar).reverse

/-- Modelled from the spec: input normalization of §4.5 step 2 — trim
surrounding whitespace, convert to lowercase. -/
def normalizeInput (s : List Char) : List Char :=
  (trimWord s).map Char.toLower

/-- Modelled from the spec: `GameController.submitGuess` — the validation
chain of §4.5 (absent/finished session, then empty input, then length, then
dictionary membership, first failure winning), then feedback computation,
guess construction and `addGuess`, returning the re-derived status. -/
def submitGuess (gc : GameController) (raw : List Char) : GuessResult × GameController :=
  match gc.gameState with
  | none => (⟨false, some GuessError.gameOver, none, none⟩, gc)
  | some st =>
    if st.isGameOver then
      (⟨false, some GuessError.gameOver, none, some st.gameStatus⟩, gc)
    else if (normalizeInput raw).length = 0 then
      (⟨false, some GuessError.emptyInput, none, some st.gameStatus⟩, gc)
    else if (normalizeInput raw).length ≠ 5 then
      (⟨false, some GuessError.lengthError, none, some st.gameStatus⟩, gc)
    else if gc.dictionary.isValidWord (JSValue.str (normalizeInput raw)) = false then
      (⟨false, some GuessError.notInDictionary, none, some st.gameStatus⟩, gc)
    else
      match st.addGuess ⟨normalizeInput raw,
          generateFeedback (normalizeInput raw) st.targetWord⟩ with
      | none => (⟨false, some GuessError.stateError, none, some st.gameStatus⟩, gc)
      | some st' =>
        (⟨true, none,
          some ⟨normalizeInput raw, generateFeedback (normalizeInput raw) st.targetWord⟩,
          some st'.gameStatus⟩, ⟨gc.dictionary, some st'⟩)

/-- `UIController.updateKeyboardState`, one `LetterFeedback` step: the new
status is stored when the key is unset, `correct` always overrides, `present`
overrides everything but `correct`, and an existing status is never
downgraded. -/
def updateKeyboardLetter (ks : Char → Option LetterStatus) (lf : LetterFeedback) :
    Char → Option LetterStatus :=
  fun c =>
    if c = lf.letter.toUpper then
      match ks (lf.letter.toUpper), lf.status with
      | none, s => some s
      | some _, LetterStatus.correct => some LetterStatus.correct
      | some cur, LetterStatus.present =>
        if cur = LetterStatus.correct then some cur else some LetterStatus.present
      | some cur, LetterStatus.absent => some cur
    else ks c

/-- `UIController.updateKeyboardState`: fold the per-letter update over a
feedback sequence, left to right. -/
def updateKeyboardState (ks : Char → Option LetterStatus) (feedback : List LetterFeedback) :
    Char → Option LetterStatus :=
  feedback.foldl updateKeyboardLetter ks

/-- Rank of an aggregated keyboard status in the total order
`correct > present > absent > unset`. -/
def statusRank : Option LetterStatus → Nat
  | none => 0
  | some LetterStatus.absent => 1
  | some LetterStatus.present => 2
  | some LetterStatus.correct => 3

/-- The word "crane", used by concrete witnesses. -/
def craneWord : List Char := ['c', 'r', 'a', 'n', 'e']

/-- The word "speed", used by concrete witnesses. -/
def speedWord : List Char := ['s', 'p', 'e', 'e', 'd']

/-- The word "erase", used by concrete witnesses. -/
def eraseWord : List Char := ['e', 'r', 'a', 's', 'e']

/-- The word "apple", used by concrete witnesses. -/
def appleWord : List Char := ['a', 'p', 'p', 'l', 'e']

/-- The word "cat", used by concrete counterexamples. -/
def catWord : List Char := ['c', 'a', 't']

/-- The word "CRANE" in upper case, used by concrete witnesses. -/
def craneUpperWord : List Char := ['C', 'R', 'A', 'N', 'E']

/-- A concrete dictionary over "crane" and "apple", used by witnesses. -/
def testDictionary : Dictionary := ⟨[craneWord, appleWord]⟩

/-- A concrete fresh controller whose session targets "crane", used by
witnesses. -/
def testController : GameController :=
  ⟨testDictionary, some (GameState.mkInitial craneWord 6)⟩

/-- A concrete finished (won) session over "crane", used by witnesses. -/
def wonState : GameState :=
  ⟨craneWord, [⟨craneWord, generateFeedback craneWord craneWord⟩], 6, GameStatus.won⟩

/-- A concrete controller holding the finished session `wonState`, used by
witnesses. -/
def wonController : GameController :=
  ⟨testDictionary, some wonState⟩

lemma correctOrPresentCount_cons (f : LetterFeedback) (xs : List LetterFeedback) (c : Char) :
    correctOrPresentCount (f :: xs) c =
      correctOrPresentCount xs c +
        (if f.letter = c ∧ (f.status = LetterStatus.correct ∨ f.status = LetterStatus.present)
          then 1 else 0) := by
  simp [correctOrPresentCount, List.countP_cons]

lemma pass2_cp_le (l : List (Char × Bool)) (avail : Char → Nat) (c : Char) :
    correctOrPresentCount (pass2 l avail) c ≤
      avail c + l.countP (fun p => decide (p.1 = c) && p.2) := by
  induction l generalizing avail with
  | nil => simp [pass2, correctOrPresentCount]
  | cons hd rest ih =>
    obtain ⟨a, b⟩ := hd
    rw [List.countP_cons]
    cases b with
    | true =>
      simp only [pass2]
      rw [correctOrPresentCount_cons]
      have h := ih avail
      by_cases hac : a = c
      · subst hac
        simp
        omega
      · simp [hac]
        omega
    | false =>
      simp only [pass2]
      by_cases hpos : 0 < avail a
      · rw [if_pos hpos, correctOrPresentCount_cons]
        have h := ih (fun d => if d = a then avail a - 1 else avail d)
        by_cases hac : a = c
        · subst hac
          simp at h
          simp
          omega
        · have hca : ¬ c = a := fun hh => hac hh.symm
          simp only [if_neg hca] at h
          simp [hac]
          omega
      · rw [if_neg hpos, correctOrPresentCount_cons]
        have h := ih avail
        simp
        omega

lemma zip_count_le (guess target : List Char) (c : Char) :
    (guess.zip target).countP (fun p => decide (p.1 = p.2) && decide (p.1 = c)) ≤
      target.countP (fun d => decide (d = c)) := by
  induction guess generalizing target with
  | nil => simp
  | cons a gs ih =>
    cases target with
    | nil => simp
    | cons b ts =>
      rw [List.zip_cons_cons, List.countP_cons, List.countP_cons]
      have h := ih ts
      by_cases hab : a = b
      · by_cases hac : a = c
        · subst hab
          subst hac
          simp
          omega
        · simp [hac]
          omega
      · simp [hab]
        omega

lemma exactMatches_eq_zip_count (guess target : List Char) (c : Char) :
    exactMatches guess target c =
      (guess.zip target).countP (fun p => decide (p.1 = p.2) && decide (p.1 = c)) := by
  unfold exactMatches
  simp

lemma exactMatches_le (guess target : List Char) (c : Char) :
    exactMatches guess target c ≤ countLetter target c := by
  rw [exactMatches_eq_zip_count]
  exact zip_count_le guess target c

lemma marks_countP_aux (l : List (Char × Char)) (c : Char) :
    (l.map (fun p => (p.1, decide (p.1 = p.2)))).countP
        (fun p => decide (p.1 = c) && p.2) =
      l.countP (fun p => decide (p.1 = p.2) && decide (p.1 = c)) := by
  induction l with
  | nil => simp
  | cons p rest ih =>
    obtain ⟨x, y⟩ := p
    rw [List.map_cons, List.countP_cons, List.countP_cons, ih]
    by_cases hxy : x = y
    · by_cases hxc : x = c
      · simp [hxy, hxc]
      · simp [hxy, hxc]
    · simp [hxy]

lemma exactMarks_countP (guess target : List Char) (c : Char) :
    (exactMarks guess target).countP (fun p => decide (p.1 = c) && p.2) =
      exactMatches guess target c := by
  rw [exactMatches_eq_zip_count]
  exact marks_countP_aux (guess.zip target) c

lemma generateFeedback_counts (guess target : List Char) (c : Char) :
    correctOrPresentCount (generateFeedback guess target) c ≤ countLetter target c := by
  have h1 := pass2_cp_le (exactMarks guess target) (initAvail guess target) c
  rw [exactMarks_countP] at h1
  have h2 := exactMatches_le guess target c
  have h3 : initAvail guess target c =
      countLetter target c - exactMatches guess target c := rfl
  unfold generateFeedback
  omega

lemma pass2_getElem?_true (l : List (Char × Bool)) (avail : Char → Nat) (i : Nat) (a : Char)
    (h : l[i]? = some (a, true)) :
    (pass2 l avail)[i]? = some ⟨a, LetterStatus.correct⟩ := by
  induction l generalizing avail i with
  | nil => simp at h
  | cons hd rest ih =>
    obtain ⟨x, b⟩ := hd
    cases i with
    | zero =>
      simp only [List.getElem?_cons_zero, Option.some.injEq, Prod.mk.injEq] at h
      obtain ⟨hx, hb⟩ := h
      subst hx
      subst hb
      simp [pass2]
    | succ n =>
      simp only [List.getElem?_cons_succ] at h
      cases b with
      | true =>
        simpa [pass2] using ih avail n h
      | false =>
        simp only [pass2]
        by_cases hpos : 0 < avail x
        · rw [if_pos hpos]
          simpa using ih (fun d => if d = x then avail x - 1 else avail d) n h
        · rw [if_neg hpos]
          simpa using ih avail n h

lemma zip_getElem?_eq (g t : List Char) (i : Nat) (cg ct : Char)
    (hg : g[i]? = some cg) (ht : t[i]? = some ct) :
    (g.zip t)[i]? = some (cg, ct) := by
  induction g generalizing t i with
  | nil => simp at hg
  | cons a gs ih =>
    cases t with
    | nil => simp at ht
    | cons b ts =>
      cases i with
      | zero =>
        simp only [List.getElem?_cons_zero, Option.some.injEq] at hg ht
        subst hg
        subst ht
        simp
      | succ n =>
        simp only [List.getElem?_cons_succ] at hg ht ⊢
        rw [List.zip_cons_cons, List.getElem?_cons_succ]
        exact ih ts n hg ht

lemma generateFeedback_exact_correct (guess target : List Char) (i : Nat) (c : Char)
    (hg : guess[i]? = some c) (ht : target[i]? = some c) :
    (generateFeedback guess target)[i]? = some ⟨c, LetterStatus.correct⟩ := by
  have hz := zip_getElem?_eq guess target i c c hg ht
  have hm : (exactMarks guess target)[i]? = some (c, true) := by
    simp [exactMarks, List.getElem?_map, hz]
  exact pass2_getElem?_true _ _ i c hm

/-- C1: for equal-length 5-letter guess and target, the number of feedback
positions whose status is `correct` or `present` and whose guess letter is `c`
never exceeds the count of `c` in the target, and every exact-position match
is reported `correct`. -/
theorem feedback_respects_target_counts (guess target : List Char)
    (hg : guess.length = 5) (ht : target.length = 5) :
    (∀ c, correctOrPresentCount (generateFeedback guess target) c ≤ countLetter target c) ∧
    (∀ (i : Nat) (c : Char), guess[i]? = some c → target[i]? = some c →
      (generateFeedback guess target)[i]? = some ⟨c, LetterStatus.correct⟩) := by
  constructor
  · intro c
    exact generateFeedback_counts guess target c
  · intro i c h1 h2
    exact generateFeedback_exact_correct guess target i c h1 h2

/-- Witness for C1: the theorem applied to the concrete pair guess "speed",
target "erase" at the letter 'e'. -/
theorem feedback_respects_target_counts_witness :
    correctOrPresentCount (generateFeedback speedWord eraseWord) 'e' ≤
      countLetter eraseWord 'e' :=
  (feedback_respects_target_counts speedWord eraseWord (by decide) (by decide)).1 'e'

lemma exactMarks_self (w : List Char) : exactMarks w w = w.map (fun c => (c, true)) := by
  induction w with
  | nil => simp [exactMarks]
  | cons a ws ih =>
    simp only [exactMarks, List.zip_cons_cons, List.map_cons] at ih ⊢
    rw [ih]
    simp

lemma pass2_map_true (w : List Char) (avail : Char → Nat) :
    pass2 (w.map (fun c => (c, true))) avail = w.map (fun c => ⟨c, LetterStatus.correct⟩) := by
  induction w generalizing avail with
  | nil => rfl
  | cons a ws ih => simp [pass2, ih]

/-- C2: computing feedback for a 5-letter guess against itself yields 5
statuses, all `correct`. -/
theorem self_feedback_all_correct (w : List Char) (h : w.length = 5) :
    (generateFeedback w w).length = 5 ∧
    ∀ f ∈ generateFeedback w w, f.status = LetterStatus.correct := by
  have key : generateFeedback w w = w.map (fun c => ⟨c, LetterStatus.correct⟩) := by
    unfold generateFeedback
    rw [exactMarks_self, pass2_map_true]
  rw [key]
  refine ⟨by simp [h], fun f hf => ?_⟩
  rcases List.mem_map.mp hf with ⟨c, _, rfl⟩
  rfl

/-- Witness for C2: the theorem applied to the word "crane". -/
theorem self_feedback_all_correct_witness :
    (generateFeedback craneWord craneWord).length = 5 :=
  (self_feedback_all_correct craneWord (by decide)).1

lemma addGuess_eq_some (s : GameState) (g : Guess) (s' : GameState)
    (h : s.addGuess g = some s') :
    s.gameStatus = GameStatus.inProgress ∧ s.guesses.length < s.maxAttempts ∧
      s' = ⟨s.targetWord, s.guesses ++ [g], s.maxAttempts,
        deriveStatus s.targetWord (s.guesses ++ [g]) s.maxAttempts⟩ := by
  unfold GameState.addGuess at h
  split_ifs at h with hc
  exact ⟨hc.1, hc.2, (Option.some.inj h).symm⟩

lemma reachable_status_derived (s : GameState) (h : Reachable s) :
    s.gameStatus = deriveStatus s.targetWord s.guesses s.maxAttempts := by
  induction h with
  | mkInitial target maxAttempts hm ht =>
    have hne : ¬ (0 = maxAttempts) := by omega
    simp [GameState.mkInitial, deriveStatus, hne]
  | step g hr hstep ih =>
    obtain ⟨h1, h2, rfl⟩ := addGuess_eq_some _ _ _ hstep
    rfl

/-- C3: in every reachable session state, the status equals the status derived
per the spec's invariants — `won` if some recorded guess equals the target,
else `lost` once the attempt count reaches the budget, else `in-progress`; in
particular an accepted guess equal to the target yields `won`, and a full
history with no guess equal to the target yields `lost`. -/
theorem gameStatus_matches_derivation :
    (∀ s : GameState, Reachable s →
      s.gameStatus = deriveStatus s.targetWord s.guesses s.maxAttempts) ∧
    (∀ (s s' : GameState) (g : Guess), Reachable s → s.addGuess g = some s' →
      g.word = s.targetWord → s'.gameStatus = GameStatus.won) ∧
    (∀ (s s' : GameState) (g : Guess), Reachable s → s.addGuess g = some s' →
      s'.guesses.length = s'.maxAttempts →
      (∀ g' ∈ s'.guesses, g'.word ≠ s'.targetWord) →
      s'.gameStatus = GameStatus.lost) := by
  refine ⟨reachable_status_derived, ?_, ?_⟩
  · intro s s' g hr hstep hw
    obtain ⟨h1, h2, rfl⟩ := addGuess_eq_some _ _ _ hstep
    have hany : ((s.guesses ++ [g]).any fun g' => decide (g'.word = s.targetWord)) = true := by
      simp [List.any_append, hw]
    simp [deriveStatus, hany]
  · intro s s' g hr hstep hlen hnone
    obtain ⟨h1, h2, rfl⟩ := addGuess_eq_some _ _ _ hstep
    simp only at hlen hnone
    have hany : ((s.guesses ++ [g]).any fun g' => decide (g'.word = s.targetWord)) = false := by
      rw [List.any_eq_false]
      intro g' hg'
      simpa using hnone g' hg'
    simp [deriveStatus, hany, hlen]

/-- Witness for C3: the derivation invariant applied to a concrete fresh
session targeting "crane". -/
theorem gameStatus_matches_derivation_witness :
    (GameState.mkInitial craneWord 6).gameStatus =
      deriveStatus (GameState.mkInitial craneWord 6).targetWord
        (GameState.mkInitial craneWord 6).guesses
        (GameState.mkInitial craneWord 6).maxAttempts :=
  gameStatus_matches_derivation.1 _
    (Reachable.mkInitial craneWord 6 (by decide) (by decide))

lemma addGuess_none_of_over (s : GameState) (g : Guess)
    (h : s.gameStatus ≠ GameStatus.inProgress) : s.addGuess g = none := by
  unfold GameState.addGuess
  rw [if_neg]
  intro hc
  exact h hc.1

lemma reachable_length_le (s : GameState) (h : Reachable s) :
    s.guesses.length ≤ s.maxAttempts := by
  induction h with
  | mkInitial target maxAttempts hm ht => simp [GameState.mkInitial]
  | step g hr hstep ih =>
    obtain ⟨h1, h2, rfl⟩ := addGuess_eq_some _ _ _ hstep
    simp only [List.length_append, List.length_cons, List.length_nil]
    omega

lemma submitGuess_over (gc : GameController) (st : GameState) (raw : List Char)
    (hgs : gc.gameState = some st) (hover : st.gameStatus ≠ GameStatus.inProgress) :
    submitGuess gc raw = (⟨false, some GuessError.gameOver, none, some st.gameStatus⟩, gc) := by
  have hio : st.isGameOver = true := by simp [GameState.isGameOver, hover]
  simp [submitGuess, hgs, hio]

/-- C4: once a session's status is not `in-progress`, no operation appends a
further attempt — `addGuess` is rejected outright, `submitGuess` fails with
the game-over state error and leaves the controller unchanged — and the
attempt count never exceeds the budget in any reachable state. -/
theorem finished_session_rejects_attempts :
    (∀ (s : GameState) (g : Guess), s.gameStatus ≠ GameStatus.inProgress →
      s.addGuess g = none) ∧
    (∀ (gc : GameController) (st : GameState) (raw : List Char),
      gc.gameState = some st → st.gameStatus ≠ GameStatus.inProgress →
      (submitGuess gc raw).1.success = false ∧
      (submitGuess gc raw).1.error = some GuessError.gameOver ∧
      (submitGuess gc raw).2 = gc) ∧
    (∀ s : GameState, Reachable s → s.guesses.length ≤ s.maxAttempts) := by
  refine ⟨addGuess_none_of_over, ?_, reachable_length_le⟩
  intro gc st raw hgs hover
  rw [submitGuess_over gc st raw hgs hover]
  exact ⟨rfl, rfl, rfl⟩

/-- Witness for C4: submitting "apple" against a concrete already-won session
is rejected with the game-over error and changes nothing. -/
theorem finished_session_rejects_attempts_witness :
    (submitGuess wonController appleWord).1.success = false ∧
    (submitGuess wonController appleWord).1.error = some GuessError.gameOver ∧
    (submitGuess wonController appleWord).2 = wonController :=
  finished_session_rejects_attempts.2.1 wonController wonState appleWord rfl (by decide)

/-- C5: a raw input whose normalized form is empty, of the wrong length, or
not in the word store is rejected — structured failure with the matching
error kind, earlier checks winning — and the controller (hence the session,
its attempt count and its remaining attempts) is unchanged. -/
theorem invalid_guess_rejected_without_change :
    ∀ (gc : GameController) (st : GameState) (raw : List Char),
      gc.gameState = some st → st.gameStatus = GameStatus.inProgress →
      ((normalizeInput raw).length = 0 ∨ (normalizeInput raw).length ≠ 5 ∨
        gc.dictionary.isValidWord (JSValue.str (normalizeInput raw)) = false) →
      (submitGuess gc raw).1.success = false ∧
      (submitGuess gc raw).2 = gc ∧
      ((normalizeInput raw).length = 0 →
        (submitGuess gc raw).1.error = some GuessError.emptyInput) ∧
      ((normalizeInput raw).length ≠ 0 → (normalizeInput raw).length ≠ 5 →
        (submitGuess gc raw).1.error = some GuessError.lengthError) ∧
      ((normalizeInput raw).length = 5 →
        gc.dictionary.isValidWord (JSValue.str (normalizeInput raw)) = false →
        (submitGuess gc raw).1.error = some GuessError.notInDictionary) := by
  intro gc st raw hgs hprog hbad
  have hio : st.isGameOver = false := by simp [GameState.isGameOver, hprog]
  by_cases h0 : (normalizeInput raw).length = 0
  · have hres : submitGuess gc raw =
        (⟨false, some GuessError.emptyInput, none, some st.gameStatus⟩, gc) := by
      simp [submitGuess, hgs, hio, h0]
    rw [hres]
    refine ⟨rfl, rfl, fun _ => rfl, fun hne _ => absurd h0 hne, fun h5 _ => ?_⟩
    omega
  · by_cases h5 : (normalizeInput raw).length = 5
    · have hv : gc.dictionary.isValidWord (JSValue.str (normalizeInput raw)) = false := by
        rcases hbad with hb | hb | hb
        · exact absurd hb h0
        · exact absurd h5 hb
        · exact hb
      have hres : submitGuess gc raw =
          (⟨false, some GuessError.notInDictionary, none, some st.gameStatus⟩, gc) := by
        simp [submitGuess, hgs, hio, h0, h5, hv]
      rw [hres]
      exact ⟨rfl, rfl, fun hc => absurd hc h0, fun _ hc => absurd h5 hc, fun _ _ => rfl⟩
    · have hres : submitGuess gc raw =
          (⟨false, some GuessError.lengthError, none, some st.gameStatus⟩, gc) := by
        simp [submitGuess, hgs, hio, h0, h5]
      rw [hres]
      exact ⟨rfl, rfl, fun hc => absurd hc h0, fun _ _ => rfl, fun hc _ => absurd hc h5⟩

/-- Witness for C5: submitting the 3-letter word "cat" to a concrete fresh
session is rejected and changes nothing. -/
theorem invalid_guess_rejected_without_change_witness :
    (submitGuess testController catWord).1.success = false ∧
    (submitGuess testController catWord).2 = testController := by
  have h := invalid_guess_rejected_without_change testController
    (GameState.mkInitial craneWord 6) catWord rfl rfl (Or.inr (Or.inl (by decide)))
  exact ⟨h.1, h.2.1⟩

/-- C6: an accepted guess appends exactly one attempt at the end of the
history and decreases the remaining attempts by exactly one, and in every
state `getRemainingAttempts` equals `maxAttempts - guesses.length`. -/
theorem accepted_guess_appends_one :
    (∀ (gc : GameController) (st : GameState) (raw : List Char),
      gc.gameState = some st → (submitGuess gc raw).1.success = true →
      ((submitGuess gc raw).2.gameState.map (fun st' => st'.guesses)) =
        some (st.guesses ++
          [⟨normalizeInput raw, generateFeedback (normalizeInput raw) st.targetWord⟩]) ∧
      ((submitGuess gc raw).2.gameState.map (fun st' => st'.getRemainingAttempts)) =
        some (st.getRemainingAttempts - 1) ∧
      (submitGuess gc raw).1.guess =
        some ⟨normalizeInput raw, generateFeedback (normalizeInput raw) st.targetWord⟩) ∧
    (∀ s : GameState,
      s.getRemainingAttempts = (s.maxAttempts : Int) - (s.guesses.length : Int)) := by
  constructor
  · intro gc st raw hgs hsucc
    by_cases hio : st.isGameOver = true
    · rw [submitGuess_over gc st raw hgs (by simpa [GameState.isGameOver] using hio)] at hsucc
      simp at hsucc
    · have hio' : st.isGameOver = false := by
        cases hh : st.isGameOver
        · rfl
        · exact absurd hh hio
      by_cases h0 : (normalizeInput raw).length = 0
      · simp [submitGuess, hgs, hio', h0] at hsucc
      · by_cases h5 : (normalizeInput raw).length = 5
        · by_cases hv : gc.dictionary.isValidWord (JSValue.str (normalizeInput raw)) = false
          · simp [submitGuess, hgs, hio', h0, h5, hv] at hsucc
          · rcases haddg : st.addGuess ⟨normalizeInput raw,
                generateFeedback (normalizeInput raw) st.targetWord⟩ with _ | st'
            · simp [submitGuess, hgs, hio', h0, h5, hv, haddg] at hsucc
            · have hres : submitGuess gc raw =
                  (⟨true, none,
                    some ⟨normalizeInput raw,
                      generateFeedback (normalizeInput raw) st.targetWord⟩,
                    some st'.gameStatus⟩, ⟨gc.dictionary, some st'⟩) := by
                simp [submitGuess, hgs, hio', h0, h5, hv, haddg]
              rw [hres]
              obtain ⟨hp, hroom, rfl⟩ := addGuess_eq_some _ _ _ haddg
              refine ⟨by simp, ?_, rfl⟩
              simp [GameState.getRemainingAttempts]
              omega
        · simp [submitGuess, hgs, hio', h0, h5] at hsucc
  · intro s
    rfl

/-- Witness for C6: submitting "apple" to a concrete fresh session targeting
"crane" appends exactly the "apple" attempt and uses exactly one attempt. -/
theorem accepted_guess_appends_one_witness :
    ((submitGuess testController appleWord).2.gameState.map (fun st' => st'.guesses)) =
      some ((GameState.mkInitial craneWord 6).guesses ++
        [⟨normalizeInput appleWord,
          generateFeedback (normalizeInput appleWord)
            (GameState.mkInitial craneWord 6).targetWord⟩]) :=
  (accepted_guess_appends_one.1 testController
    (GameState.mkInitial craneWord 6) appleWord rfl (by decide)).1

lemma foldl_setInsert_mem (ws : List (List Char)) (acc : List (List Char)) (x : List Char) :
    x ∈ ws.foldl setInsert acc ↔ x ∈ acc ∨ x ∈ ws := by
  induction ws generalizing acc with
  | nil => simp
  | cons w rest ih =>
    rw [List.foldl_cons, ih]
    unfold setInsert
    by_cases hw : w ∈ acc
    · rw [if_pos hw]
      constructor
      · rintro (h | h)
        · exact Or.inl h
        · exact Or.inr (List.mem_cons_of_mem _ h)
      · rintro (h | h)
        · exact Or.inl h
        · rcases List.mem_cons.mp h with rfl | h
          · exact Or.inl hw
          · exact Or.inr h
    · rw [if_neg hw]
      simp [List.mem_append, List.mem_cons]
      tauto

lemma foldl_setInsert_nodup (ws : List (List Char)) (acc : List (List Char))
    (hacc : acc.Nodup) : (ws.foldl setInsert acc).Nodup := by
  induction ws generalizing acc with
  | nil => exact hacc
  | cons w rest ih =>
    rw [List.foldl_cons]
    apply ih
    unfold setInsert
    by_cases hw : w ∈ acc
    · rwa [if_pos hw]
    · rw [if_neg hw, List.nodup_append]
      refine ⟨hacc, List.nodup_singleton w, ?_⟩
      intro x hx hx1
      rcases List.mem_singleton.mp hx1 with rfl
      exact hw hx

lemma buildSet_length_eq_dedup (ws : List (List Char)) :
    (buildSet ws).length = ws.dedup.length := by
  have h1 : (buildSet ws).Nodup := foldl_setInsert_nodup ws [] List.nodup_nil
  have h2 : ws.dedup.Nodup := ws.nodup_dedup
  have h3 : ∀ x, x ∈ buildSet ws ↔ x ∈ ws.dedup := by
    intro x
    rw [List.mem_dedup]
    unfold buildSet
    rw [foldl_setInsert_mem]
    simp
  exact ((List.perm_ext_iff_of_nodup h1 h2).mpr h3).length_eq

lemma lowerAll_mem (vs : List JSValue) (ls : List (List Char))
    (h : lowerAll vs = some ls) :
    ∀ x, x ∈ ls ↔ ∃ v ∈ vs, v.toLowerCase = some x := by
  induction vs generalizing ls with
  | nil =>
    unfold lowerAll at h
    obtain rfl : ([] : List (List Char)) = ls := Option.some.inj h
    simp
  | cons v rest ih =>
    unfold lowerAll at h
    rcases hv : v.toLowerCase with _ | w
    · rw [hv] at h
      exact Option.noConfusion h
    · rcases hrest : lowerAll rest with _ | ws
      · rw [hv, hrest] at h
        exact Option.noConfusion h
      · rw [hv, hrest] at h
        obtain rfl : w :: ws = ls := Option.some.inj h
        intro x
        constructor
        · intro hx
          rcases List.mem_cons.mp hx with rfl | hx
          · exact ⟨v, List.mem_cons_self v rest, hv⟩
          · obtain ⟨v', hv', hlow⟩ := ((ih ws hrest) x).mp hx
            exact ⟨v', List.mem_cons_of_mem v hv', hlow⟩
        · rintro ⟨v', hv', hlow⟩
          rcases List.mem_cons.mp hv' with rfl | hmem
          · rw [hv] at hlow
            exact List.mem_cons.mpr (Or.inl (Option.some.inj hlow).symm)
          · exact List.mem_cons.mpr (Or.inr (((ih ws hrest) x).mpr ⟨v', hmem, hlow⟩))

lemma lowerAll_none_of_nonstring (vs : List JSValue)
    (h : ∃ v ∈ vs, ∀ s, v ≠ JSValue.str s) : lowerAll vs = none := by
  induction vs with
  | nil => simp at h
  | cons v rest ih =>
    rcases h with ⟨v', hv', hns⟩
    rcases List.mem_cons.mp hv' with rfl | hmem
    · have hnone : v'.toLowerCase = none := by
        cases v' with
        | str s => exact absurd rfl (hns s)
        | num n => rfl
        | boolean b => rfl
        | null => rfl
        | undefined => rfl
      unfold lowerAll
      rw [hnone]
    · have hrest := ih ⟨v', hmem, hns⟩
      unfold lowerAll
      rw [hrest]
      rcases hv : v.toLowerCase with _ | w
      · rfl
      · rfl

lemma make_eq_some (words : List JSValue) (d : Dictionary)
    (h : Dictionary.make words = some d) :
    words.length ≠ 0 ∧
      ∃ lowered, lowerAll words = some lowered ∧ d = ⟨buildSet lowered⟩ := by
  unfold Dictionary.make at h
  split_ifs at h with h0
  rcases hl : lowerAll words with _ | lowered
  · rw [hl] at h
    exact Option.noConfusion h
  · rw [hl] at h
    exact ⟨h0, lowered, rfl, (Option.some.inj h).symm⟩

/-- C7 counterexample: the store built from the single 3-letter entry "cat"
is accepted with size 1, while the count of distinct lowercase 5-letter
strings inserted is 0 — `size` does not count only 5-letter entries. -/
theorem size_counts_nonFiveLetter_counterexample :
    Dictionary.make [JSValue.str catWord] = some ⟨[catWord]⟩ ∧
    (Dictionary.mk [catWord]).size = 1 ∧
    specFiveLetterCount [JSValue.str catWord] = 0 ∧
    (Dictionary.mk [catWord]).size ≠ specFiveLetterCount [JSValue.str catWord] := by
  decide

/-- C7 amended: `size` returns the count of distinct lowercased strings
inserted (duplicates collapse case-insensitively), counting entries of every
length, not only 5-letter ones. -/
theorem size_counts_distinct_lowercased (words : List JSValue) (d : Dictionary)
    (h : Dictionary.make words = some d) :
    (lowerAll words).map (fun ls => ls.dedup.length) = some d.size := by
  obtain ⟨h0, lowered, hl, rfl⟩ := make_eq_some words d h
  rw [hl]
  simp [Dictionary.size, buildSet_length_eq_dedup]

/-- Witness for C7 (amended): a store built from "CRANE", "crane" and "cat"
has size 2, the number of distinct lowercased entries. -/
theorem size_counts_distinct_lowercased_witness :
    (lowerAll [JSValue.str craneUpperWord, JSValue.str craneWord, JSValue.str catWord]).map
        (fun ls => ls.dedup.length) =
      some (Dictionary.mk [craneWord, catWord]).size :=
  size_counts_distinct_lowercased
    [JSValue.str craneUpperWord, JSValue.str craneWord, JSValue.str catWord]
    ⟨[craneWord, catWord]⟩ (by decide)

/-- C8: `isValidWord` is total — `false` on every non-string value, and on a
string it returns `true` exactly when some inserted word lowercases to the
lowercased input (case-insensitive membership). -/
theorem isValidWord_total_membership (words : List JSValue) (d : Dictionary)
    (h : Dictionary.make words = some d) :
    (∀ v : JSValue, (∀ s, v ≠ JSValue.str s) → d.isValidWord v = false) ∧
    (∀ s : List Char, d.isValidWord (JSValue.str s) = true ↔
      ∃ v ∈ words, v.toLowerCase = some (s.map Char.toLower)) := by
  obtain ⟨h0, lowered, hl, rfl⟩ := make_eq_some words d h
  constructor
  · intro v hv
    cases v with
    | str s => exact absurd rfl (hv s)
    | num n => rfl
    | boolean b => rfl
    | null => rfl
    | undefined => rfl
  · intro s
    have hmem := (lowerAll_mem words lowered hl) (s.map Char.toLower)
    unfold Dictionary.isValidWord
    simp only [decide_eq_true_eq]
    rw [← hmem]
    unfold buildSet
    rw [foldl_setInsert_mem]
    simp

/-- Witness for C8: a store built from the word "crane" reports `false` on
the non-string value `null`. -/
theorem isValidWord_total_membership_witness :
    (Dictionary.mk [craneWord]).isValidWord JSValue.null = false :=
  (isValidWord_total_membership [JSValue.str craneWord] ⟨[craneWord]⟩ (by decide)).1
    JSValue.null (fun s h => JSValue.noConfusion h)

/-- C10: constructing the store from a non-empty array containing a
non-string element throws — no store is produced, because normalization
calls `toLowerCase` on every element. -/
theorem make_throws_on_nonstring (words : List JSValue) (hne : words ≠ [])
    (h : ∃ v ∈ words, ∀ s, v ≠ JSValue.str s) :
    Dictionary.make words = none := by
  unfold Dictionary.make
  split_ifs with h0
  · rfl
  · rw [lowerAll_none_of_nonstring words h]

/-- Witness for C10: the one-element array holding the number 3 is rejected. -/
theorem make_throws_on_nonstring_witness :
    Dictionary.make [JSValue.num 3] = none :=
  make_throws_on_nonstring [JSValue.num 3] (by decide)
    ⟨JSValue.num 3, by simp, fun s h => JSValue.noConfusion h⟩

lemma statusRank_le_updateKeyboardLetter (ks : Char → Option LetterStatus)
    (lf : LetterFeedback) (c : Char) :
    statusRank (ks c) ≤ statusRank (updateKeyboardLetter ks lf c) := by
  unfold updateKeyboardLetter
  by_cases hc : c = lf.letter.toUpper
  · rw [if_pos hc, hc]
    rcases hk : ks lf.letter.toUpper with _ | cur
    · cases hs : lf.status <;> simp [hk, hs, statusRank]
    · cases hs : lf.status <;> cases cur <;> simp [hk, hs, statusRank]
  · rw [if_neg hc]

lemma statusRank_le_updateKeyboardState (ks : Char → Option LetterStatus)
    (fs : List LetterFeedback) (c : Char) :
    statusRank (ks c) ≤ statusRank (updateKeyboardState ks fs c) := by
  induction fs generalizing ks with
  | nil => exact Nat.le_refl _
  | cons f rest ih =>
    exact Nat.le_trans (statusRank_le_updateKeyboardLetter ks f c)
      (ih (updateKeyboardLetter ks f))

lemma statusRank_three (x : Option LetterStatus) (h : 3 ≤ statusRank x) :
    x = some LetterStatus.correct := by
  rcases x with _ | s
  · simp [statusRank] at h
  · cases s
    · rfl
    · simp [statusRank] at h
    · simp [statusRank] at h

/-- C9: keyboard-hint aggregation is monotone in the total order
`correct > present > absent`: applying any feedback sequence never lowers a
letter's rank, a letter marked `correct` stays `correct`, and a letter at
least `present` is never downgraded to `absent`. -/
theorem keyboard_aggregation_monotone :
    ∀ (ks : Char → Option LetterStatus) (fs : List LetterFeedback) (c : Char),
      statusRank (ks c) ≤ statusRank (updateKeyboardState ks fs c) ∧
      (ks c = some LetterStatus.correct →
        updateKeyboardState ks fs c = some LetterStatus.correct) ∧
      (statusRank (some LetterStatus.present) ≤ statusRank (ks c) →
        updateKeyboardState ks fs c ≠ some LetterStatus.absent) := by
  intro ks fs c
  have hmono := statusRank_le_updateKeyboardState ks fs c
  refine ⟨hmono, ?_, ?_⟩
  · intro hc
    apply statusRank_three
    rw [hc] at hmono
    simpa [statusRank] using hmono
  · intro hp heq
    rw [heq] at hmono
    simp [statusRank] at hmono hp
    omega

/-- Witness for C9: a key already `correct` stays `correct` after an `absent`
feedback arrives for the same letter. -/
theorem keyboard_aggregation_monotone_witness :
    updateKeyboardState (fun _ => some LetterStatus.correct)
      [⟨'a', LetterStatus.absent⟩] 'A' = some LetterStatus.correct :=
  (keyboard_aggregation_monotone (fun _ => some LetterStatus.correct)
    [⟨'a', LetterStatus.absent⟩] 'A').2.1 rfl

/-- Regression fixture from §8 of the spec, derived from the two-pass
algorithm: guess "speed" against target "erase". -/
theorem generateFeedback_speed_erase :
    generateFeedback speedWord eraseWord =
      [⟨'s', LetterStatus.present⟩, ⟨'p', LetterStatus.absent⟩, ⟨'e', LetterStatus.present⟩,
       ⟨'e', LetterStatus.present⟩, ⟨'d', LetterStatus.absent⟩] := by
  decide
